import Mathlib

/-
Verification development for the magfly_hls job pipeline
(src/lib/streamFromMagnet.js plus the express route handlers).

The JavaScript source is shallowly embedded below.  External,
independently-fallible capabilities (the WebTorrent client, ffmpeg, the
S3/MinIO object store, Math.random) appear as explicit parameters of the
model: a run of the pipeline is a pure function of the submitted input and
of the behaviour chosen for those capabilities, so every theorem quantifies
over all behaviours of the external world that the code can observe.
-/

namespace MagFly

/-! ### String helpers

JavaScript string primitives used by the source, modelled on `List Char` /
`String`.  `endsWithS` and `startsWithS` model `String.prototype.endsWith`
and `String.prototype.startsWith`. -/

def endsWithS (s suffix : String) : Bool :=
  suffix.toList.isSuffixOf s.toList

def startsWithS (s prefixStr : String) : Bool :=
  prefixStr.toList.isPrefixOf s.toList

/-- ASCII lower-casing of one character, modelling the case folding the
`i` regex flag performs on the ASCII letters appearing in the source's
patterns. -/
def lcChar (c : Char) : Char := c.toLower

/-- The lower-cased character list of a string. -/
def lcS (s : String) : List Char := s.toList.map lcChar

/-! ### Name Obfuscator: playlist reference rewriting

`uploadHLSFilesForVideo` (streamFromMagnet.js:150-152) rewrites the
playlist text with

  `m3u8Content = m3u8Content.replace(new RegExp(oldName, 'g'), newName)`

for each `oldName ↦ newName` entry of `tsFileMapping`, in insertion order.
The old name is passed to `new RegExp` UNESCAPED, so it is interpreted as a
regular expression, not as a literal token.  We model the fragment of
JavaScript regexes that file names exercise: every character matches
itself, except `.` which matches any single character.  (Other regex
metacharacters are outside this model; the theorems that compare the
rewriter with literal replacement carry a `regexPlainChar` hypothesis
restricting old names to characters on which the model is exact.) -/

inductive RChar where
  | lit (c : Char)
  | dot
deriving DecidableEq, Repr

/-- Compile the raw name string handed to `new RegExp(oldName, 'g')` into
the pattern the regex engine matches: `.` becomes a single-character
wildcard, every other (non-metacharacter) character matches itself. -/
def compilePattern (s : List Char) : List RChar :=
  s.map (fun c => if c = '.' then RChar.dot else RChar.lit c)

def rcharMatches : RChar → Char → Bool
  | RChar.lit c, x => x == c
  | RChar.dot, _ => true

/-- Match the pattern against the front of the text; on success return the
remaining text after the match (each `RChar` consumes exactly one
character). -/
def matchHere : List RChar → List Char → Option (List Char)
  | [], rest => some rest
  | _ :: _, [] => none
  | p :: ps, x :: xs => if rcharMatches p x then matchHere ps xs else none

/-- Does the pattern match anywhere in the text? -/
def hasMatch (p : List RChar) : List Char → Bool
  | [] => (matchHere p []).isSome
  | x :: xs => (matchHere p (x :: xs)).isSome || hasMatch p xs

/-- Global, leftmost, non-overlapping replacement of a pattern in a text:
the semantics of `text.replace(regex_g, replacement)`.  Structured with
explicit fuel so that the definition is structurally recursive and
kernel-evaluable; `fuel ≥ text.length + 1` always suffices (each step
consumes at least one character of the text), and the wrapper
`jsReplaceAll` below supplies exactly that. -/
def replaceGlobalF : Nat → List RChar → List Char → List Char → List Char
  | 0, _, _, s => s
  | _ + 1, p, r, [] =>
    match matchHere p [] with
    | some _ => r
    | none => []
  | fuel + 1, p, r, x :: xs =>
    match matchHere p (x :: xs) with
    | some rest =>
      if p.isEmpty then r ++ x :: replaceGlobalF fuel p r xs
      else r ++ replaceGlobalF fuel p r rest
    | none => x :: replaceGlobalF fuel p r xs

/-- One `m3u8Content.replace(new RegExp(oldName, 'g'), newName)` step
(streamFromMagnet.js:151). -/
def jsReplaceAll (oldName newName text : List Char) : List Char :=
  replaceGlobalF (text.length + 1) (compilePattern oldName) newName text

/-- The whole rewrite loop over `Object.entries(tsFileMapping)`
(streamFromMagnet.js:150-152); entries are visited in insertion order. -/
def rewriteReferences (mapping : List (List Char × List Char)) (text : List Char) : List Char :=
  mapping.foldl (fun acc pr => jsReplaceAll pr.1 pr.2 acc) text

/-- String-level wrapper of `rewriteReferences`. -/
def rewriteReferencesS (mapping : List (String × String)) (text : String) : String :=
  (rewriteReferences (mapping.map (fun pr => (pr.1.toList, pr.2.toList))) text.toList).asString

/-- Follows the spec's words (§4.3, §9): exact, global, leftmost,
non-overlapping LITERAL replacement of `old` by `r`, treating the old name
as an opaque token — the behaviour the spec claims for the rewriter.  Kept
separate from the source-derived `jsReplaceAll` so the two can be
compared.  Fuel as in `replaceGlobalF`. -/
def literalReplaceAllF : Nat → List Char → List Char → List Char → List Char
  | 0, _, _, s => s
  | _ + 1, old, r, [] => if old.isEmpty then r else []
  | fuel + 1, old, r, x :: xs =>
    if old.isPrefixOf (x :: xs) then
      if old.isEmpty then r ++ x :: literalReplaceAllF fuel old r xs
      else r ++ literalReplaceAllF fuel old r ((x :: xs).drop old.length)
    else x :: literalReplaceAllF fuel old r xs

def literalReplaceAll (old r text : List Char) : List Char :=
  literalReplaceAllF (text.length + 1) old r text

/-- A character that a JavaScript regex treats as matching itself: none of
`* + ? ( ) [ ] 123 125 ^ $ | \ .` (listed by character code; 123/125 are the
brace characters, 46 is the dot). -/
def regexPlainChar (c : Char) : Bool :=
  !([42, 43, 63, 40, 41, 91, 93, 123, 125, 94, 36, 124, 92, 46].contains c.toNat)

/-! ### Upload Orchestrator: `uploadHLSFilesForVideo`
(streamFromMagnet.js:124-168)

The object store is modelled by `up : String → Option String`: `up key =
none` means the `PutObjectCommand` for that key succeeds (the object is
durably stored), `up key = some msg` means it fails and
`uploadFileToMinIO` rethrows with message `msg`.  The stream of
`generateRandomUnicodeName()` draws is modelled by `names : Nat → String`
(the i-th draw of the call).  The work directory's contents are the
association list `dirFiles` of (file name, file content), in `readdirSync`
order.  The returned trace records, in program order, each completed
observable effect: a finished segment upload, the rewritten playlist being
written back to disk, and the finished playlist upload. -/

inductive Ev where
  | uploadTs (origName : String) (key : String)
  | writePlaylist (content : String)
  | uploadM3u8 (key : String)
deriving DecidableEq, Repr

/-- The `for (const tsFile of tsFiles)` loop (streamFromMagnet.js:138-148):
upload each segment under the key uniqueId-slash-randomName dot ts, then record the
old → new name mapping.  Returns the event trace and, on success, the
accumulated `tsFileMapping` in insertion order; the first failed upload
throws. -/
def uploadSegments (names : Nat → String) (up : String → Option String) (uid : String) :
    List String → Nat → List Ev × Except String (List (String × String))
  | [], _ => ([], Except.ok [])
  | t :: rest, i =>
    let newName := names i ++ ".ts"
    let key := uid ++ "/" ++ newName
    match up key with
    | none =>
      let out := uploadSegments names up uid rest (i + 1)
      (Ev.uploadTs t key :: out.1, out.2.map (fun ms => (t, newName) :: ms))
    | some msg => ([], Except.error msg)

/-- `uploadHLSFilesForVideo(outputDir, uniqueId)`
(streamFromMagnet.js:124-168).  On success returns the playlist URL
together with the LOCAL playlist file name `m3u8File`, which is what the
function pushes onto `playlistUrlsMap[uniqueId]` (line 165). -/
def uploadHLSFilesForVideo (names : Nat → String) (up : String → Option String)
    (uid : String) (dirFiles : List (String × String)) :
    List Ev × Except String (String × String) :=
  match (dirFiles.map Prod.fst).find? (fun f => endsWithS f ".m3u8") with
  | none => ([], Except.error "No .m3u8 file found after transcoding.")
  | some m3u8File =>
    let m3u8Content := (dirFiles.lookup m3u8File).getD ""
    let tsFiles := (dirFiles.map Prod.fst).filter (fun f => endsWithS f ".ts")
    match uploadSegments names up uid tsFiles 0 with
    | (tr, Except.error msg) => (tr, Except.error msg)
    | (tr, Except.ok mapping) =>
      let newContent := rewriteReferencesS mapping m3u8Content
      let m3u8Key := uid ++ "/" ++ (names tsFiles.length ++ ".m3u8")
      match up m3u8Key with
      | some msg => (tr ++ [Ev.writePlaylist newContent], Except.error msg)
      | none =>
        let playlistUrl := "https://neko-minio.b1pohl.easypanel.host/hls/" ++ m3u8Key
        (tr ++ [Ev.writePlaylist newContent, Ev.uploadM3u8 m3u8Key],
          Except.ok (playlistUrl, m3u8File))

/-! ### Job pipeline state and environment -/

/-- A file contained in the torrent (name + stream factory; only the name
is observable to the pipeline logic we verify). -/
structure TFile where
  name : String
deriving DecidableEq, Repr

/-- Process-wide mutable state touched by the pipeline:
`dirs` is the set (as a list) of directories currently existing on local
storage under the root output directory; `workDirsUsed` is ghost history
recording every work directory handed to `mkdirSync` for a file, in
order; `statusMap` models `processStatus` (newest entry first, lookup
takes the most recent write); `log` is ghost history of every
`updateStatus` call as (jobId, status), oldest first; `results` models
`playlistUrlsMap` flattened to (jobId, playlistUrl, fileName) triples in
append order. -/
structure St where
  dirs : List String
  workDirsUsed : List String
  statusMap : List (String × String)
  log : List (String × String)
  results : List (String × String × String)
deriving DecidableEq, Repr

def emptySt : St := ⟨[], [], [], [], []⟩

/-- Behaviour of the external capabilities during one run: the random-name
stream, the object store (as in `uploadHLSFilesForVideo`), and ffmpeg:
`transcode n` is the terminal event of transcoding the torrent file named
`n` — either the ffmpeg error, or the artifact it leaves in the work
directory: the list of segment files (name, content) plus the content of
the playlist `index.m3u8` it writes (the output target fixed at
streamFromMagnet.js:189). -/
structure JobEnv where
  names : Nat → String
  up : String → Option String
  transcode : String → Except String (List (String × String) × String)

/-- `updateStatus(uniqueId, status)` (streamFromMagnet.js:51-54): last
write wins; also appends to the ghost log. -/
def updateStatus (st : St) (uid status : String) : St :=
  { st with statusMap := (uid, status) :: st.statusMap, log := st.log ++ [(uid, status)] }

/-- `getStatusById` (streamFromMagnet.js:61-63). -/
def getStatusById (st : St) (uid : String) : String :=
  (st.statusMap.lookup uid).getD "Unknown ID or process not started."

/-- `getPlaylistUrls` (streamFromMagnet.js:70-72): the job's accumulated
(playlistUrl, fileName) results; this is what the `/playlist/:uuid` route
returns. -/
def getPlaylistUrls (st : St) (uid : String) : List (String × String) :=
  (st.results.filter (fun e => e.1 == uid)).map (fun e => e.2)

/-- The push of the pair (playlistUrl, fileName) onto playlistUrlsMap at uniqueId
(streamFromMagnet.js:164-165). -/
def pushResult (st : St) (uid url fileName : String) : St :=
  { st with results := st.results ++ [(uid, url, fileName)] }

/-- Directory creation guarded by `existsSync` (streamFromMagnet.js:184-186);
`workDirsUsed` is ghost history of the directory used for each file. -/
def mkdirIfAbsent (st : St) (d : String) : St :=
  { st with
    dirs := if st.dirs.contains d then st.dirs else st.dirs ++ [d],
    workDirsUsed := st.workDirsUsed ++ [d] }

/-- `cleanup(outputDir)` (streamFromMagnet.js:101-110): recursive removal
of the directory if it exists.  (The JavaScript swallows a removal error
with a warning; the model treats local removal as succeeding.) -/
def removeDir (st : St) (d : String) : St :=
  { st with dirs := st.dirs.filter (fun x => x ≠ d) }

/-- JavaScript `\w` (ASCII word character). -/
def isWordChar (c : Char) : Bool := c.isAlphanum || c = '_'

/-- `file.name.replace(/\W+/g, '_')` (streamFromMagnet.js:182): each
maximal run of non-word characters becomes a single underscore.  The
Boolean flag records whether the previous character was inside such a
run. -/
def sanitizeAux : Bool → List Char → List Char
  | _, [] => []
  | inRun, c :: cs =>
    if isWordChar c then c :: sanitizeAux false cs
    else if inRun then sanitizeAux true cs
    else '_' :: sanitizeAux true cs

def sanitizedFileName (name : String) : String := (sanitizeAux false name.toList).asString

def ROOT_OUTPUT_DIR : String := "./hls-output"

/-- `path.join(ROOT_OUTPUT_DIR, 'hls-output-' + sanitizedFileName)`
(streamFromMagnet.js:183).  Note: a function of the file name only — the
job identifier does not enter the path. -/
def outputDirFor (fileName : String) : String :=
  ROOT_OUTPUT_DIR ++ "/hls-output-" ++ sanitizedFileName fileName

/-- The qualification test `/\.(mp4|mkv|avi|mov)$/i.test(f.name)`
(streamFromMagnet.js:177): the pattern is anchored at the end and the `i`
flag folds case, so the test succeeds exactly when the lower-cased name
has one of the four dotted extensions as a suffix. -/
def videoFileTest (name : String) : Bool :=
  (".mp4".toList.isSuffixOf (lcS name)) || (".mkv".toList.isSuffixOf (lcS name))
    || (".avi".toList.isSuffixOf (lcS name)) || (".mov".toList.isSuffixOf (lcS name))

/-- Follows the spec's words (§4.1): a file qualifies iff its name matches
one of the recognized video container extensions `.mp4`, `.mkv`, `.avi`,
`.mov`, case-insensitively. -/
def specQualifies (name : String) : Bool :=
  [".mp4", ".mkv", ".avi", ".mov"].any (fun ext => ext.toList.isSuffixOf (lcS name))

/-- The `for (const file of videoFiles)` loop of `processTorrentFiles`
(streamFromMagnet.js:181-230).  Per file: create the work directory,
update the status, transcode (the awaited ffmpeg promise), and on the
`end` event upload via `uploadHLSFilesForVideo`; `cleanup(outputDir)` runs
on the success path and on both error paths before the promise settles.  A
rejected per-file promise propagates out of the loop (the `await` throws),
so the remaining files are not visited.  Returns the final state and the
`playlistUrls` array the function would return, whose entries carry the
ORIGINAL file name (line 215) — unlike the entries pushed onto
`playlistUrlsMap` inside the upload (line 165). -/
def processFilesLoop (env : JobEnv) (uid : String) :
    List TFile → St → St × Except String (List (String × String))
  | [], st => (st, Except.ok [])
  | f :: rest, st =>
    let d := outputDirFor f.name
    let st1 := mkdirIfAbsent st d
    let st2 := updateStatus st1 uid ("Processing file: " ++ f.name)
    match env.transcode f.name with
    | Except.error msg => (removeDir st2 d, Except.error msg)
    | Except.ok (segs, plContent) =>
      match uploadHLSFilesForVideo env.names env.up uid (("index.m3u8", plContent) :: segs) with
      | (_, Except.error msg) => (removeDir st2 d, Except.error msg)
      | (_, Except.ok (url, m3u8Name)) =>
        let st3 := removeDir (pushResult st2 uid url m3u8Name) d
        match processFilesLoop env uid rest st3 with
        | (st4, Except.error msg) => (st4, Except.error msg)
        | (st4, Except.ok urls) => (st4, Except.ok ((url, f.name) :: urls))

/-- `processTorrentFiles(torrent, uniqueId)` (streamFromMagnet.js:176-232):
filter to the qualifying video files, fail if none qualify, else run the
per-file loop. -/
def processTorrentFiles (env : JobEnv) (uid : String) (files : List TFile) (st : St) :
    St × Except String (List (String × String)) :=
  let videoFiles := files.filter (fun f => videoFileTest f.name)
  if videoFiles.isEmpty then (st, Except.error "No suitable video files found in the torrent.")
  else processFilesLoop env uid videoFiles st

/-- The submitted input: a string (possibly a magnet URI) or a Buffer with
the bytes of a torrent file. -/
inductive Input where
  | str (s : String)
  | buffer (bytes : List Nat)
deriving DecidableEq, Repr

/-- `resolveInput(input)` (streamFromMagnet.js:239-251): a string must
start with `magnet:?`; any Buffer is accepted; everything else throws. -/
def resolveInput : Input → Except String Input
  | Input.str s =>
    if startsWithS s "magnet:?" then Except.ok (Input.str s)
    else Except.error "Invalid input: Must be a magnet URI string or a torrent file buffer."
  | Input.buffer b => Except.ok (Input.buffer b)

/-- The torrent-acquisition outcome the WebTorrent client exhibits for this
run: either the `add` callback fires with a torrent whose contained files
are `files`, or the client emits an `error` event with the given `code`
and message before the callback runs. -/
inductive TorrentPhase where
  | addOk (files : List TFile)
  | clientError (code : String) (msg : String)

/-- How the promise returned by `streamFromInput` settles. -/
inductive JobResult where
  | resolved (urls : List (String × String))
  | rejected (msg : String)
  | pending
deriving DecidableEq, Repr

/-- Result of one `streamFromInput` run: final shared state, how the
promise settled, and how many times `wtClient.destroy` was invoked. -/
structure RunOut where
  st : St
  result : JobResult
  destroyCount : Nat
deriving Repr

/-- `streamFromInput(input, uniqueId)` (streamFromMagnet.js:259-305).
`resolveInput` is awaited first (its rejection carries no status update
and no client).  In the `add` callback path the client is destroyed
exactly once whether processing resolves or throws; in the client `error`
path a `UTP_ECONNRESET` is only warned about (the promise never settles),
while any other error updates the status and rejects WITHOUT destroying
the client.  (The `torrent.on('done')` progress listener only logs and
updates the status with a fixed message; it is independent of control flow
and not modelled.) -/
def streamFromInput (env : JobEnv) (phase : TorrentPhase) (input : Input) (uid : String)
    (st : St) : RunOut :=
  match resolveInput input with
  | Except.error msg => ⟨st, JobResult.rejected msg, 0⟩
  | Except.ok _ =>
    match phase with
    | TorrentPhase.addOk files =>
      let st1 := updateStatus st uid "Torrent added. Processing video files..."
      match processTorrentFiles env uid files st1 with
      | (st2, Except.ok urls) =>
        ⟨updateStatus st2 uid "Process complete.", JobResult.resolved urls, 1⟩
      | (st2, Except.error msg) =>
        ⟨updateStatus st2 uid ("Error during processing: " ++ msg), JobResult.rejected msg, 1⟩
    | TorrentPhase.clientError code msg =>
      if code = "UTP_ECONNRESET" then ⟨st, JobResult.pending, 0⟩
      else ⟨updateStatus st uid ("WebTorrent error: " ++ msg), JobResult.rejected msg, 0⟩

/-- The outcome of processing one file in isolation, as the loop computes
it: the ffmpeg error, or the upload's result (playlistUrl, local playlist
file name).  Mirrors the corresponding arms of `processFilesLoop`. -/
def fileOutcome (env : JobEnv) (uid : String) (f : TFile) : Except String (String × String) :=
  match env.transcode f.name with
  | Except.error e => Except.error e
  | Except.ok (segs, pl) =>
    (uploadHLSFilesForVideo env.names env.up uid (("index.m3u8", pl) :: segs)).2

def urlOf (env : JobEnv) (uid : String) (f : TFile) : String :=
  match fileOutcome env uid f with
  | Except.ok v => v.1
  | Except.error _ => ""

def fnameOf (env : JobEnv) (uid : String) (f : TFile) : String :=
  match fileOutcome env uid f with
  | Except.ok v => v.2
  | Except.error _ => ""

/-- Abbreviation: the state after one successful loop iteration for file
`f` (work directory created, status updated, result pushed, directory
cleaned). -/
def stepState (st : St) (uid : String) (f : TFile) (url m3u8Name : String) : St :=
  removeDir (pushResult (updateStatus (mkdirIfAbsent st (outputDirFor f.name)) uid
    ("Processing file: " ++ f.name)) uid url m3u8Name) (outputDirFor f.name)

/-- Abbreviation: the state after a loop iteration that failed at
transcode or upload for file `f` (directory created, status updated,
directory cleaned, nothing pushed). -/
def errStepState (st : St) (uid : String) (f : TFile) : St :=
  removeDir (updateStatus (mkdirIfAbsent st (outputDirFor f.name)) uid
    ("Processing file: " ++ f.name)) (outputDirFor f.name)

/-! ### HTTP handler for `POST /start-stream` (src/unnamed/part_001:24-53)

The handler draws a fresh id, picks the input (a truthy `magnet` body
field wins over an uploaded file; JavaScript truthiness makes the empty
string count as absent), answers `400` when neither is present, and
otherwise responds with the job id IMMEDIATELY and lets
`streamFromInput(...).catch(err => updateStatus(uniqueId, 'Error during
processing: ' + err.message))` run asynchronously.  The model returns the
HTTP response together with the state after the asynchronous part has
settled. -/

structure StartReq where
  magnet : Option String
  file : Option (List Nat)

inductive HandlerResp where
  | badRequest (msg : String)
  | acceptedJson (uid : String)
deriving DecidableEq, Repr

def truthyMagnet (r : StartReq) : Option String :=
  match r.magnet with
  | some s => if s = "" then none else some s
  | none => none

def afterInput (env : JobEnv) (phase : TorrentPhase) (uid : String) (input : Input)
    (st : St) : HandlerResp × St :=
  let out := streamFromInput env phase input uid st
  match out.result with
  | JobResult.rejected msg =>
    (HandlerResp.acceptedJson uid, updateStatus out.st uid ("Error during processing: " ++ msg))
  | _ => (HandlerResp.acceptedJson uid, out.st)

def handleStartStream (env : JobEnv) (phase : TorrentPhase) (uid : String) (req : StartReq)
    (st : St) : HandlerResp × St :=
  match truthyMagnet req with
  | some s => afterInput env phase uid (Input.str s) st
  | none =>
    match req.file with
    | some b => afterInput env phase uid (Input.buffer b) st
    | none => (HandlerResp.badRequest "No magnet link or torrent file provided.", st)

/-! ### Concrete environments and runs used by counterexamples and
witnesses -/

def namesAll : Nat → String := fun _ => "AAAABBBBCCCC"

def upAllOk : String → Option String := fun _ => none

/-- Every file transcodes to one segment plus a playlist referencing it. -/
def env2 : JobEnv :=
  ⟨namesAll, upAllOk, fun _ => Except.ok ([("index0.ts", "SEGDATA")], "#EXTM3U\nindex0.ts\n")⟩

/-- `a.mp4` fails at transcode; every other file succeeds. -/
def env1 : JobEnv :=
  ⟨namesAll, upAllOk, fun n =>
    if n = "a.mp4" then Except.error "boom"
    else Except.ok ([("index0.ts", "SEGDATA")], "#EXTM3U\nindex0.ts\n")⟩

def magnetInput : Input := Input.str "magnet:?xt=abc"

def run1 : RunOut :=
  streamFromInput env1 (TorrentPhase.addOk [⟨"a.mp4"⟩, ⟨"b.mp4"⟩]) magnetInput "J" emptySt

def run2 : RunOut :=
  streamFromInput env2 (TorrentPhase.addOk [⟨"movie.mp4"⟩]) magnetInput "J" emptySt

def runA : RunOut :=
  streamFromInput env2 (TorrentPhase.addOk [⟨"movie.mp4"⟩]) magnetInput "JOBA" emptySt

def runB : RunOut :=
  streamFromInput env2 (TorrentPhase.addOk [⟨"movie.mp4"⟩]) magnetInput "JOBB" emptySt

/-- A work directory's contents after a successful transcode: the playlist
and one segment. -/
def dirW : List (String × String) := [("index.m3u8", "#EXTM3U\nindex0.ts\n"), ("index0.ts", "X")]

def loop2 : St × Except String (List (String × String)) :=
  processFilesLoop env2 "J" [⟨"movie.mp4"⟩] emptySt

instance exceptDecEq {ε α : Type} [DecidableEq ε] [DecidableEq α] : DecidableEq (Except ε α) :=
  fun a b =>
    match a, b with
    | Except.ok x, Except.ok y =>
      if h : x = y then isTrue (by rw [h]) else isFalse (by intro hc; cases hc; exact h rfl)
    | Except.error x, Except.error y =>
      if h : x = y then isTrue (by rw [h]) else isFalse (by intro hc; cases hc; exact h rfl)
    | Except.ok _, Except.error _ => isFalse (by intro hc; cases hc)
    | Except.error _, Except.ok _ => isFalse (by intro hc; cases hc)

/-! ## Theorems -/

/-! ### Rewriter lemmas (Name Obfuscator) -/

theorem regexPlainChar_ne_dot {c : Char} (h : regexPlainChar c = true) : c ≠ '.' := by
  intro he
  rw [he] at h
  exact absurd h (by decide)

theorem matchHere_compile_dotless (old : List Char) (h : ∀ c ∈ old, c ≠ '.') (s : List Char) :
    matchHere (compilePattern old) s =
      if old <+: s then some (s.drop old.length) else none := by
  induction old generalizing s with
  | nil => simp [compilePattern, matchHere]
  | cons c cs ih =>
    have hc : c ≠ '.' := h c (List.mem_cons_self c cs)
    have hcs : ∀ x ∈ cs, x ≠ '.' := fun x hx => h x (List.mem_cons_of_mem c hx)
    have hstep : compilePattern (c :: cs) = RChar.lit c :: compilePattern cs := by
      simp [compilePattern, hc]
    cases s with
    | nil =>
      rw [hstep]
      rw [if_neg (by simp)]
      rfl
    | cons x xs =>
      rw [hstep]
      by_cases hxc : x = c
      · subst hxc
        have hred : matchHere (RChar.lit x :: compilePattern cs) (x :: xs)
            = matchHere (compilePattern cs) xs := by
          simp [matchHere, rcharMatches]
        rw [hred, ih hcs xs]
        by_cases hp : cs <+: xs
        · rw [if_pos hp, if_pos (List.cons_prefix_cons.mpr ⟨rfl, hp⟩)]
          rfl
        · rw [if_neg hp, if_neg (fun hcon => hp (List.cons_prefix_cons.mp hcon).2)]
      · have hred : matchHere (RChar.lit c :: compilePattern cs) (x :: xs) = none := by
          simp [matchHere, rcharMatches, hxc]
        rw [hred, if_neg (fun hcon => hxc (List.cons_prefix_cons.mp hcon).1.symm)]

theorem compilePattern_isEmpty (old : List Char) :
    (compilePattern old).isEmpty = old.isEmpty := by
  cases old <;> rfl

theorem replaceGlobalF_eq_literalF (r old : List Char) (h : ∀ c ∈ old, c ≠ '.') :
    ∀ (fuel : Nat) (s : List Char),
      replaceGlobalF fuel (compilePattern old) r s = literalReplaceAllF fuel old r s := by
  intro fuel
  induction fuel with
  | zero => intro s; rfl
  | succ n ih =>
    intro s
    cases s with
    | nil =>
      rcases old with _ | ⟨c, cs⟩
      · simp [replaceGlobalF, literalReplaceAllF, compilePattern, matchHere]
      · simp [replaceGlobalF, literalReplaceAllF, compilePattern,
          show (c ≠ '.') from h c (List.mem_cons_self c cs), matchHere]
    | cons x xs =>
      by_cases hp : old <+: (x :: xs)
      · have hmh : matchHere (compilePattern old) (x :: xs)
            = some ((x :: xs).drop old.length) := by
          rw [matchHere_compile_dotless old h, if_pos hp]
        have hb : old.isPrefixOf (x :: xs) = true := List.isPrefixOf_iff_prefix.mpr hp
        rcases old with _ | ⟨c, cs⟩
        · have hih := ih xs
          have hc0 : compilePattern ([] : List Char) = [] := rfl
          rw [hc0] at hih
          simp [replaceGlobalF, literalReplaceAllF, matchHere, hb, hc0, hih]
        · have hih := ih ((x :: xs).drop (c :: cs).length)
          simp only [replaceGlobalF, literalReplaceAllF, hmh, hb, if_true]
          have h1 : (compilePattern (c :: cs)).isEmpty = false := by
            rw [compilePattern_isEmpty]; rfl
          have h2 : ((c :: cs) : List Char).isEmpty = false := rfl
          simp only [h1, h2, Bool.false_eq_true, if_false, hih]
      · have hmh : matchHere (compilePattern old) (x :: xs) = none := by
          rw [matchHere_compile_dotless old h, if_neg hp]
        have hb : old.isPrefixOf (x :: xs) = false := by
          cases hbb : old.isPrefixOf (x :: xs)
          · rfl
          · exact absurd (List.isPrefixOf_iff_prefix.mp hbb) hp
        simp only [replaceGlobalF, literalReplaceAllF, hmh, hb, Bool.false_eq_true, if_false]
        rw [ih xs]

theorem replaceGlobalF_noop_of_no_match (p : List RChar) (r : List Char) :
    ∀ (fuel : Nat) (s : List Char), s.length < fuel → hasMatch p s = false →
      replaceGlobalF fuel p r s = s := by
  intro fuel
  induction fuel with
  | zero => intro s hl _; exact absurd hl (Nat.not_lt_zero _)
  | succ n ih =>
    intro s hl hm
    cases s with
    | nil =>
      simp only [hasMatch] at hm
      cases hmh : matchHere p [] with
      | none => simp [replaceGlobalF, hmh]
      | some v => rw [hmh] at hm; simp at hm
    | cons x xs =>
      simp only [hasMatch, Bool.or_eq_false_iff] at hm
      obtain ⟨hm1, hm2⟩ := hm
      cases hmh : matchHere p (x :: xs) with
      | some v => rw [hmh] at hm1; simp at hm1
      | none =>
        simp only [replaceGlobalF, hmh]
        rw [ih xs (by simp at hl; omega) hm2]

/-- C3 counterexample: the mapping entry `index0.ts ↦ NEWNAME99.ts` has no
literal occurrence in the text `index0xts`, yet the code's rewriter — which
passes the raw old name to `new RegExp(oldName, 'g')`, so that the `.`
matches the `x` — replaces the whole text.  The rewriter is therefore not
an exact literal replacement. -/
theorem rewrite_not_literal_replacement :
    rewriteReferences [("index0.ts".toList, "NEWNAME99.ts".toList)] "index0xts".toList =
        "NEWNAME99.ts".toList
    ∧ ¬ ("index0.ts".toList <:+: "index0xts".toList) := by
  constructor
  · decide
  · decide

/-- C3 (amended): the rewriter performs global pattern substitution with
the old name interpreted as an (unescaped) regular expression; whenever
every old name consists solely of regex-plain characters (no
metacharacters, in particular no `.`), one run of the rewriter coincides
with exact, global, leftmost, non-overlapping literal replacement applied
mapping-entry by mapping-entry. -/
theorem rewrite_is_literal_on_plain_names (m : List (List Char × List Char)) (t : List Char)
    (h : ∀ pr ∈ m, ∀ c ∈ pr.1, regexPlainChar c = true) :
    rewriteReferences m t = m.foldl (fun acc pr => literalReplaceAll pr.1 pr.2 acc) t := by
  induction m generalizing t with
  | nil => rfl
  | cons pr ms ih =>
    have hdot : ∀ c ∈ pr.1, c ≠ '.' := fun c hc =>
      regexPlainChar_ne_dot (h pr (List.mem_cons_self _ _) c hc)
    have h1 : jsReplaceAll pr.1 pr.2 t = literalReplaceAll pr.1 pr.2 t :=
      replaceGlobalF_eq_literalF pr.2 pr.1 hdot _ t
    calc rewriteReferences (pr :: ms) t
        = rewriteReferences ms (jsReplaceAll pr.1 pr.2 t) := rfl
      _ = ms.foldl (fun acc q => literalReplaceAll q.1 q.2 acc) (jsReplaceAll pr.1 pr.2 t) :=
          ih _ (fun q hq => h q (List.mem_cons_of_mem _ hq))
      _ = (pr :: ms).foldl (fun acc q => literalReplaceAll q.1 q.2 acc) t := by
          rw [h1, List.foldl_cons]

theorem rewrite_is_literal_on_plain_names_witness :
    (∀ pr ∈ [("index0ts".toList, "NEW.ts".toList)], ∀ c ∈ pr.1, regexPlainChar c = true)
    ∧ rewriteReferences [("index0ts".toList, "NEW.ts".toList)] "AAindex0tsBB".toList =
        [("index0ts".toList, "NEW.ts".toList)].foldl
          (fun acc pr => literalReplaceAll pr.1 pr.2 acc) "AAindex0tsBB".toList :=
  ⟨by decide, rewrite_is_literal_on_plain_names _ _ (by decide)⟩

/-- C4 counterexample: the mapping's only old name `index0.ts` does not
occur in the text `index0xts`, yet applying the rewriter changes the text
(the name, used as a regex, matches with `.` as a wildcard) — so rewriting
with a mapping of non-occurring names is NOT always a no-op. -/
theorem rewrite_changes_text_without_occurrence :
    ¬ ("index0.ts".toList <:+: "index0xts".toList)
    ∧ rewriteReferences [("index0.ts".toList, "NEWNAME99.ts".toList)] "index0xts".toList
        ≠ "index0xts".toList := by
  constructor
  · decide
  · decide

/-- C4 (amended): rewriting is a no-op whenever no old name of the
mapping, interpreted the way the code interprets it (a `new RegExp`
pattern in which `.` matches any single character), has a match anywhere
in the playlist text. -/
theorem rewrite_noop_without_pattern_match (m : List (List Char × List Char)) (t : List Char)
    (h : ∀ pr ∈ m, hasMatch (compilePattern pr.1) t = false) :
    rewriteReferences m t = t := by
  induction m with
  | nil => rfl
  | cons pr ms ih =>
    have h1 : jsReplaceAll pr.1 pr.2 t = t :=
      replaceGlobalF_noop_of_no_match _ _ _ _ (Nat.lt_succ_self _)
        (h pr (List.mem_cons_self _ _))
    calc rewriteReferences (pr :: ms) t
        = rewriteReferences ms (jsReplaceAll pr.1 pr.2 t) := rfl
      _ = rewriteReferences ms t := by rw [h1]
      _ = t := ih (fun q hq => h q (List.mem_cons_of_mem _ hq))

theorem rewrite_noop_without_pattern_match_witness :
    (∀ pr ∈ [("abc".toList, "xyz".toList)],
        hasMatch (compilePattern pr.1) "hello".toList = false)
    ∧ rewriteReferences [("abc".toList, "xyz".toList)] "hello".toList = "hello".toList :=
  ⟨by decide, rewrite_noop_without_pattern_match _ _ (by decide)⟩

/-! ### Upload Orchestrator lemmas -/

theorem uploadSegments_ok (names : Nat → String) (up : String → Option String) (uid : String) :
    ∀ (ts : List String) (i : Nat) (ms : List (String × String)),
      (uploadSegments names up uid ts i).2 = Except.ok ms →
      (uploadSegments names up uid ts i).1 =
          ms.map (fun pr => Ev.uploadTs pr.1 (uid ++ "/" ++ pr.2))
        ∧ ms.map Prod.fst = ts := by
  intro ts
  induction ts with
  | nil =>
    intro i ms h
    simp only [uploadSegments, Except.ok.injEq] at h
    subst h
    exact ⟨rfl, rfl⟩
  | cons t rest ih =>
    intro i ms h
    simp only [uploadSegments] at h ⊢
    split at h
    · rename_i hu
      simp only [hu]
      rcases hres : uploadSegments names up uid rest (i + 1) with ⟨tr1, res1⟩
      rw [hres] at h
      cases res1 with
      | error e => simp [Except.map] at h
      | ok ms' =>
        simp only [Except.map, Except.ok.injEq] at h
        obtain ⟨g1, g2⟩ := ih (i + 1) ms' (by rw [hres])
        have g1' : tr1 = List.map (fun pr => Ev.uploadTs pr.1 (uid ++ "/" ++ pr.2)) ms' := by
          rw [hres] at g1; exact g1
        subst h
        constructor
        · simp [g1']
        · simp [g2]
    · simp at h

/-- C5: for every successful run of the upload orchestrator, the event
trace consists of exactly one completed upload per `.ts` segment file of
the work directory (in directory order, under the obfuscated keys of the
accumulated mapping), followed by the playlist being rewritten with that
accumulated mapping and written back, followed last by the playlist's own
upload — so every segment upload strictly precedes the playlist upload,
and the uploaded playlist content is the rewrite under the mapping of the
uploaded segments. -/
theorem segments_uploaded_before_playlist (names : Nat → String) (up : String → Option String)
    (uid : String) (dirFiles : List (String × String)) (url m3u8File : String)
    (h : (uploadHLSFilesForVideo names up uid dirFiles).2 = Except.ok (url, m3u8File)) :
    ∃ mapping : List (String × String),
      (uploadHLSFilesForVideo names up uid dirFiles).1 =
          mapping.map (fun pr => Ev.uploadTs pr.1 (uid ++ "/" ++ pr.2))
            ++ [Ev.writePlaylist
                  (rewriteReferencesS mapping ((dirFiles.lookup m3u8File).getD "")),
                Ev.uploadM3u8
                  (uid ++ "/" ++ (names ((dirFiles.map Prod.fst).filter
                      (fun f => endsWithS f ".ts")).length ++ ".m3u8"))]
        ∧ mapping.map Prod.fst =
            (dirFiles.map Prod.fst).filter (fun f => endsWithS f ".ts") := by
  unfold uploadHLSFilesForVideo at h ⊢
  cases hf : (dirFiles.map Prod.fst).find? (fun f => endsWithS f ".m3u8") with
  | none => rw [hf] at h; simp at h
  | some m =>
    rw [hf] at h
    simp only at h ⊢
    rcases hseg : uploadSegments names up uid
        ((dirFiles.map Prod.fst).filter (fun f => endsWithS f ".ts")) 0 with ⟨tr, res⟩
    rw [hseg] at h
    cases res with
    | error e => simp at h
    | ok mapping =>
      simp only at h ⊢
      cases hup : up (uid ++ "/"
          ++ (names ((dirFiles.map Prod.fst).filter (fun f => endsWithS f ".ts")).length
              ++ ".m3u8")) with
      | some msg => rw [hup] at h; simp at h
      | none =>
        rw [hup] at h
        simp only [Except.ok.injEq, Prod.mk.injEq] at h
        obtain ⟨-, hm⟩ := h
        subst hm
        have hok : (uploadSegments names up uid
            ((dirFiles.map Prod.fst).filter (fun f => endsWithS f ".ts")) 0).2
              = Except.ok mapping := by rw [hseg]
        obtain ⟨h1, h2⟩ := uploadSegments_ok names up uid _ 0 mapping hok
        have htr : tr = mapping.map (fun pr => Ev.uploadTs pr.1 (uid ++ "/" ++ pr.2)) := by
          rw [← h1, hseg]
        exact ⟨mapping, by simp [htr], h2⟩

theorem segments_uploaded_before_playlist_witness :
    ((uploadHLSFilesForVideo namesAll upAllOk "J" dirW).2 =
        Except.ok ("https://neko-minio.b1pohl.easypanel.host/hls/J/AAAABBBBCCCC.m3u8",
          "index.m3u8"))
    ∧ ∃ mapping : List (String × String),
        (uploadHLSFilesForVideo namesAll upAllOk "J" dirW).1 =
            mapping.map (fun pr => Ev.uploadTs pr.1 ("J" ++ "/" ++ pr.2))
              ++ [Ev.writePlaylist
                    (rewriteReferencesS mapping ((dirW.lookup "index.m3u8").getD "")),
                  Ev.uploadM3u8
                    ("J" ++ "/" ++ (namesAll ((dirW.map Prod.fst).filter
                        (fun f => endsWithS f ".ts")).length ++ ".m3u8"))]
          ∧ mapping.map Prod.fst = (dirW.map Prod.fst).filter (fun f => endsWithS f ".ts") :=
  ⟨by decide, segments_uploaded_before_playlist namesAll upAllOk "J" dirW
    "https://neko-minio.b1pohl.easypanel.host/hls/J/AAAABBBBCCCC.m3u8" "index.m3u8" (by decide)⟩

/-! ### Job pipeline lemmas -/

theorem dirs_create_then_remove (l : List String) (d : String) :
    ((if l.contains d then l else l ++ [d]).filter (fun x => x ≠ d)) ⊆ l := by
  intro a ha
  simp only [List.mem_filter] at ha
  obtain ⟨hmem, hne⟩ := ha
  by_cases hc : l.contains d
  · rw [if_pos hc] at hmem; exact hmem
  · rw [if_neg hc] at hmem
    rcases List.mem_append.mp hmem with h1 | h1
    · exact h1
    · exfalso
      simp only [List.mem_singleton] at h1
      subst h1
      simp at hne

theorem processFilesLoop_dirs (env : JobEnv) (uid : String) :
    ∀ (fs : List TFile) (st : St), (processFilesLoop env uid fs st).1.dirs ⊆ st.dirs := by
  intro fs
  induction fs with
  | nil => intro st; simp [processFilesLoop]
  | cons f rest ih =>
    intro st
    have hbase : (removeDir (updateStatus (mkdirIfAbsent st (outputDirFor f.name)) uid
        ("Processing file: " ++ f.name)) (outputDirFor f.name)).dirs ⊆ st.dirs := by
      simp only [removeDir, updateStatus, mkdirIfAbsent]
      exact dirs_create_then_remove st.dirs (outputDirFor f.name)
    cases ht : env.transcode f.name with
    | error e =>
      simp only [processFilesLoop, ht]
      exact hbase
    | ok sp =>
      obtain ⟨segs, pl⟩ := sp
      simp only [processFilesLoop, ht]
      split
      · exact hbase
      · rename_i tr pr url m3u8Name hu
        split
        · rename_i st4 msg hrec
          have h1 := ih (removeDir (pushResult (updateStatus (mkdirIfAbsent st
              (outputDirFor f.name)) uid ("Processing file: " ++ f.name)) uid url m3u8Name)
              (outputDirFor f.name))
          rw [hrec] at h1
          have h2 : (removeDir (pushResult (updateStatus (mkdirIfAbsent st
              (outputDirFor f.name)) uid ("Processing file: " ++ f.name)) uid url m3u8Name)
              (outputDirFor f.name)).dirs ⊆ st.dirs := by
            simp only [removeDir, pushResult, updateStatus, mkdirIfAbsent]
            exact dirs_create_then_remove st.dirs (outputDirFor f.name)
          exact fun a ha => h2 (h1 ha)
        · rename_i st4 urls hrec
          have h1 := ih (removeDir (pushResult (updateStatus (mkdirIfAbsent st
              (outputDirFor f.name)) uid ("Processing file: " ++ f.name)) uid url m3u8Name)
              (outputDirFor f.name))
          rw [hrec] at h1
          have h2 : (removeDir (pushResult (updateStatus (mkdirIfAbsent st
              (outputDirFor f.name)) uid ("Processing file: " ++ f.name)) uid url m3u8Name)
              (outputDirFor f.name)).dirs ⊆ st.dirs := by
            simp only [removeDir, pushResult, updateStatus, mkdirIfAbsent]
            exact dirs_create_then_remove st.dirs (outputDirFor f.name)
          exact fun a ha => h2 (h1 ha)

/-- C9: every work directory created during a run is removed again on
every exit path: whatever the behaviour of the capabilities (any
per-file transcode or upload outcome, any torrent phase, any input), the
local directories existing when `streamFromInput` concludes are a subset
of those existing before the run — no directory created during the job
survives it. -/
theorem workdirs_removed_on_every_exit (env : JobEnv) (phase : TorrentPhase) (input : Input)
    (uid : String) (st : St) :
    (streamFromInput env phase input uid st).st.dirs ⊆ st.dirs := by
  unfold streamFromInput
  cases hin : resolveInput input with
  | error msg => exact fun a ha => ha
  | ok i2 =>
    cases phase with
    | addOk files =>
      simp only [processTorrentFiles]
      by_cases hemp : (files.filter (fun f => videoFileTest f.name)).isEmpty
      · simp only [hemp, if_true]
        exact fun a ha => ha
      · simp only [hemp, Bool.false_eq_true, if_false]
        rcases hloop : processFilesLoop env uid (files.filter (fun f => videoFileTest f.name))
            (updateStatus st uid "Torrent added. Processing video files...") with ⟨st2, r⟩
        have h1 := processFilesLoop_dirs env uid
          (files.filter (fun f => videoFileTest f.name))
          (updateStatus st uid "Torrent added. Processing video files...")
        rw [hloop] at h1
        cases r with
        | ok urls => exact h1
        | error msg => exact h1
    | clientError code msg =>
      by_cases hc : code = "UTP_ECONNRESET"
      · simp only [hc, if_true]
        exact fun a ha => ha
      · simp only [hc, if_false]
        exact fun a ha => ha

theorem workdirs_removed_on_every_exit_witness :
    (streamFromInput env2 (TorrentPhase.addOk [⟨"movie.mp4"⟩]) magnetInput "J9"
        { emptySt with dirs := ["keep"] }).st.dirs ⊆ ({ emptySt with dirs := ["keep"] } : St).dirs :=
  workdirs_removed_on_every_exit env2 (TorrentPhase.addOk [⟨"movie.mp4"⟩]) magnetInput "J9"
    { emptySt with dirs := ["keep"] }

/-- C8 counterexample: work directories are NOT exclusively scoped to a
single job and file.  Two distinct jobs (`JOBA` ≠ `JOBB`) processing a
file of the same name use the same directory (the runs' work-directory
histories coincide and are nonempty), and even within one job two
distinct qualifying file names (`a.b.mp4` ≠ `a b.mp4`) collapse to the
same directory, because the path depends only on the sanitized file name
and not on the job identifier. -/
theorem workdir_shared_across_jobs :
    runA.st.workDirsUsed = runB.st.workDirsUsed
    ∧ runA.st.workDirsUsed ≠ []
    ∧ ("JOBA" : String) ≠ "JOBB"
    ∧ outputDirFor "a.b.mp4" = outputDirFor "a b.mp4"
    ∧ ("a.b.mp4" : String) ≠ "a b.mp4"
    ∧ videoFileTest "a.b.mp4" = true ∧ videoFileTest "a b.mp4" = true := by
  refine ⟨by decide, by decide, by decide, by decide, by decide, by decide, by decide⟩

/-- C8 (amended): the work directory used for a file is
`outputDirFor` of that file's name alone — a deterministic function of the
sanitized file name that does not mention the job identifier — so two
processing instances share a directory exactly when their sanitized names
coincide, regardless of job.  For every run, the work directories used are
those of a prefix of the file list (processing stops at the first
failure), each computed by `outputDirFor`. -/
theorem workdirs_are_function_of_filename (env : JobEnv) (uid : String) :
    ∀ (fs : List TFile) (st : St), ∃ attempted : List TFile, attempted <+: fs ∧
      (processFilesLoop env uid fs st).1.workDirsUsed =
        st.workDirsUsed ++ attempted.map (fun f => outputDirFor f.name) := by
  intro fs
  induction fs with
  | nil =>
    intro st
    exact ⟨[], List.nil_prefix, by simp [processFilesLoop]⟩
  | cons f rest ih =>
    intro st
    cases ht : env.transcode f.name with
    | error e =>
      refine ⟨[f], ⟨rest, rfl⟩, ?_⟩
      simp only [processFilesLoop, ht]
      simp [removeDir, updateStatus, mkdirIfAbsent]
    | ok sp =>
      obtain ⟨segs, pl⟩ := sp
      simp only [processFilesLoop, ht]
      split
      · refine ⟨[f], ⟨rest, rfl⟩, ?_⟩
        simp [removeDir, updateStatus, mkdirIfAbsent]
      · rename_i tr pr url m3u8Name hu
        split
        · rename_i st4 msg hrec
          obtain ⟨att, hpre, heq⟩ := ih (removeDir (pushResult (updateStatus (mkdirIfAbsent st
              (outputDirFor f.name)) uid ("Processing file: " ++ f.name)) uid url m3u8Name)
              (outputDirFor f.name))
          rw [hrec] at heq
          refine ⟨f :: att, List.cons_prefix_cons.mpr ⟨rfl, hpre⟩, ?_⟩
          simp only [List.map_cons]
          rw [heq]
          simp [removeDir, pushResult, updateStatus, mkdirIfAbsent]
        · rename_i st4 urls hrec
          obtain ⟨att, hpre, heq⟩ := ih (removeDir (pushResult (updateStatus (mkdirIfAbsent st
              (outputDirFor f.name)) uid ("Processing file: " ++ f.name)) uid url m3u8Name)
              (outputDirFor f.name))
          rw [hrec] at heq
          refine ⟨f :: att, List.cons_prefix_cons.mpr ⟨rfl, hpre⟩, ?_⟩
          simp only [List.map_cons]
          rw [heq]
          simp [removeDir, pushResult, updateStatus, mkdirIfAbsent]

/-- C10 counterexample: a fatal torrent-client error (any error code other
than `UTP_ECONNRESET`, here `EFATAL`) terminates the job — the promise is
rejected and the failure is recorded in status — but the torrent handle is
destroyed ZERO times on that terminal transition, not exactly once: the
`wtClient.on('error')` handler rejects without calling
`wtClient.destroy`. -/
theorem no_destroy_on_fatal_client_error :
    (streamFromInput env2 (TorrentPhase.clientError "EFATAL" "boom") magnetInput "J" emptySt
        ).destroyCount = 0
    ∧ (streamFromInput env2 (TorrentPhase.clientError "EFATAL" "boom") magnetInput "J" emptySt
        ).result = JobResult.rejected "boom" := by
  refine ⟨by decide, by decide⟩

/-- C10 (amended): the torrent handle is destroyed exactly once whenever
the job concludes through the `add`-callback path — both when processing
resolves (`Completed`) and when it throws (`Failed`); but when the job
concludes through a fatal client `error` event (code other than
`UTP_ECONNRESET`) the promise is rejected without the handle being
destroyed at all. -/
theorem destroy_once_on_add_path_only (env : JobEnv) (files : List TFile)
    (code msg : String) (input inp2 : Input) (uid : String) (st : St)
    (hin : resolveInput input = Except.ok inp2) (hc : code ≠ "UTP_ECONNRESET") :
    (streamFromInput env (TorrentPhase.addOk files) input uid st).destroyCount = 1
    ∧ (streamFromInput env (TorrentPhase.clientError code msg) input uid st).destroyCount = 0
    ∧ (streamFromInput env (TorrentPhase.clientError code msg) input uid st).result =
        JobResult.rejected msg := by
  refine ⟨?_, ?_, ?_⟩
  · unfold streamFromInput
    rw [hin]
    simp only
    rcases hpt : processTorrentFiles env uid files
        (updateStatus st uid "Torrent added. Processing video files...") with ⟨st2, r⟩
    cases r with
    | ok urls => rfl
    | error m => rfl
  · unfold streamFromInput
    rw [hin]
    simp [hc]
  · unfold streamFromInput
    rw [hin]
    simp [hc]

theorem destroy_once_on_add_path_only_witness :
    resolveInput magnetInput = Except.ok magnetInput
    ∧ ("EFATAL" : String) ≠ "UTP_ECONNRESET"
    ∧ (streamFromInput env2 (TorrentPhase.addOk [⟨"movie.mp4"⟩]) magnetInput "JW" emptySt
        ).destroyCount = 1
    ∧ (streamFromInput env2 (TorrentPhase.clientError "EFATAL" "oops") magnetInput "JW" emptySt
        ).destroyCount = 0
    ∧ (streamFromInput env2 (TorrentPhase.clientError "EFATAL" "oops") magnetInput "JW" emptySt
        ).result = JobResult.rejected "oops" := by
  have h := destroy_once_on_add_path_only env2 [⟨"movie.mp4"⟩] "EFATAL" "oops" magnetInput
    magnetInput "JW" emptySt (by decide) (by decide)
  exact ⟨by decide, by decide, h.1, h.2.1, h.2.2⟩

theorem suffix_ext_iff (n : String) (ext : String) :
    (('.' :: ext.toList).isSuffixOf (lcS n)) = true ↔
      ∃ stem, lcS n = stem ++ '.' :: ext.toList := by
  rw [List.isSuffixOf_iff_suffix]
  constructor
  · rintro ⟨t, ht⟩; exact ⟨t, ht.symm⟩
  · rintro ⟨stem, hs⟩; exact ⟨stem, hs.symm⟩

/-- C7: (a) the source's regex test `/\.(mp4|mkv|avi|mov)$/i` accepts a
file name exactly when its lower-cased character sequence ends in a dot
followed by one of `mp4`, `mkv`, `avi`, `mov`; (b) whenever zero contained
files qualify, the job fails with the no-suitable-files error: the promise
is rejected with that message, no result entry is ever appended, and the
status records the error — for any behaviour of the capabilities. -/
theorem qualification_and_zero_files_failure :
    (∀ n : String, videoFileTest n = true ↔
      ∃ ext ∈ (["mp4", "mkv", "avi", "mov"] : List String), ∃ stem : List Char,
        lcS n = stem ++ '.' :: ext.toList)
    ∧ (∀ (env : JobEnv) (uid : String) (input inp2 : Input) (st : St) (files : List TFile),
        resolveInput input = Except.ok inp2 →
        files.filter (fun f => videoFileTest f.name) = [] →
        (streamFromInput env (TorrentPhase.addOk files) input uid st).result =
            JobResult.rejected "No suitable video files found in the torrent."
        ∧ (streamFromInput env (TorrentPhase.addOk files) input uid st).st.results = st.results
        ∧ getStatusById (streamFromInput env (TorrentPhase.addOk files) input uid st).st uid =
            "Error during processing: No suitable video files found in the torrent.") := by
  constructor
  · intro n
    have e1 : (".mp4".toList : List Char) = '.' :: "mp4".toList := by decide
    have e2 : (".mkv".toList : List Char) = '.' :: "mkv".toList := by decide
    have e3 : (".avi".toList : List Char) = '.' :: "avi".toList := by decide
    have e4 : (".mov".toList : List Char) = '.' :: "mov".toList := by decide
    constructor
    · intro h
      simp only [videoFileTest, Bool.or_eq_true] at h
      rcases h with ((h | h) | h) | h
      · rw [e1] at h
        obtain ⟨stem, hs⟩ := (suffix_ext_iff n "mp4").mp h
        exact ⟨"mp4", by simp, stem, hs⟩
      · rw [e2] at h
        obtain ⟨stem, hs⟩ := (suffix_ext_iff n "mkv").mp h
        exact ⟨"mkv", by simp, stem, hs⟩
      · rw [e3] at h
        obtain ⟨stem, hs⟩ := (suffix_ext_iff n "avi").mp h
        exact ⟨"avi", by simp, stem, hs⟩
      · rw [e4] at h
        obtain ⟨stem, hs⟩ := (suffix_ext_iff n "mov").mp h
        exact ⟨"mov", by simp, stem, hs⟩
    · rintro ⟨ext, hmem, stem, hstem⟩
      simp only [List.mem_cons, List.not_mem_nil, or_false] at hmem
      simp only [videoFileTest, Bool.or_eq_true]
      rcases hmem with rfl | rfl | rfl | rfl
      · exact Or.inl (Or.inl (Or.inl (by rw [e1]; exact (suffix_ext_iff n "mp4").mpr ⟨stem, hstem⟩)))
      · exact Or.inl (Or.inl (Or.inr (by rw [e2]; exact (suffix_ext_iff n "mkv").mpr ⟨stem, hstem⟩)))
      · exact Or.inl (Or.inr (by rw [e3]; exact (suffix_ext_iff n "avi").mpr ⟨stem, hstem⟩))
      · exact Or.inr (by rw [e4]; exact (suffix_ext_iff n "mov").mpr ⟨stem, hstem⟩)
  · intro env uid input inp2 st files hin hfil
    unfold streamFromInput
    rw [hin]
    simp only [processTorrentFiles, hfil]
    refine ⟨rfl, ?_, ?_⟩
    · simp [updateStatus]
    · simp [getStatusById, updateStatus, List.lookup]

theorem qualification_and_zero_files_failure_witness :
    (videoFileTest "Movie.MKV" = true ↔
      ∃ ext ∈ (["mp4", "mkv", "avi", "mov"] : List String), ∃ stem : List Char,
        lcS "Movie.MKV" = stem ++ '.' :: ext.toList)
    ∧ (resolveInput magnetInput = Except.ok magnetInput
        ∧ ([⟨"doc.pdf"⟩] : List TFile).filter (fun f => videoFileTest f.name) = []
        ∧ (streamFromInput env2 (TorrentPhase.addOk [⟨"doc.pdf"⟩]) magnetInput "J7" emptySt
            ).result = JobResult.rejected "No suitable video files found in the torrent.") :=
  ⟨qualification_and_zero_files_failure.1 "Movie.MKV",
    by decide, by decide,
    (qualification_and_zero_files_failure.2 env2 "J7" magnetInput magnetInput emptySt
      [⟨"doc.pdf"⟩] (by decide) (by decide)).1⟩

/-- C6 counterexample: submitting a body whose magnet field is "hello" — a string
that is neither a magnet URI nor a torrent-file payload — does NOT fail
the request synchronously: the handler answers with the job id, and the
invalid-input error only shows up asynchronously as a status entry of the
freshly created job (the status registry is no longer empty). -/
theorem invalid_input_still_creates_job :
    (handleStartStream env2 (TorrentPhase.addOk []) "J6" ⟨some "hello", none⟩ emptySt).1 =
        HandlerResp.acceptedJson "J6"
    ∧ getStatusById (handleStartStream env2 (TorrentPhase.addOk []) "J6"
        ⟨some "hello", none⟩ emptySt).2 "J6" =
        "Error during processing: Invalid input: Must be a magnet URI string or a torrent file buffer."
    ∧ ((handleStartStream env2 (TorrentPhase.addOk []) "J6" ⟨some "hello", none⟩ emptySt).2
        ).statusMap ≠ [] := by
  refine ⟨by decide, by decide, by decide⟩

/-- C6 (amended): only a request with NO input at all (no truthy `magnet`
field, no uploaded file) fails synchronously with 400 and leaves the state
untouched (no job, no status entry).  A present but invalid input — a
non-empty string that does not start with `magnet:?` — is accepted: the
handler responds with the job id, and the `InvalidInputError` is surfaced
asynchronously as that job's status entry. -/
theorem invalid_input_surfaces_asynchronously (env : JobEnv) (phase : TorrentPhase)
    (uid s : String) (st : St) (hs : s ≠ "") (hm : startsWithS s "magnet:?" = false) :
    (handleStartStream env phase uid ⟨some s, none⟩ st).1 = HandlerResp.acceptedJson uid
    ∧ getStatusById (handleStartStream env phase uid ⟨some s, none⟩ st).2 uid =
        "Error during processing: Invalid input: Must be a magnet URI string or a torrent file buffer."
    ∧ (handleStartStream env phase uid ⟨none, none⟩ st).1 =
        HandlerResp.badRequest "No magnet link or torrent file provided."
    ∧ (handleStartStream env phase uid ⟨none, none⟩ st).2 = st := by
  have hres : resolveInput (Input.str s) = Except.error
      "Invalid input: Must be a magnet URI string or a torrent file buffer." := by
    simp [resolveInput, hm]
  refine ⟨?_, ?_, rfl, rfl⟩
  · simp [handleStartStream, truthyMagnet, hs, afterInput, streamFromInput, hres]
  · simp [handleStartStream, truthyMagnet, hs, afterInput, streamFromInput, hres,
      getStatusById, updateStatus, List.lookup]

theorem invalid_input_surfaces_asynchronously_witness :
    ("hello" : String) ≠ ""
    ∧ startsWithS "hello" "magnet:?" = false
    ∧ (handleStartStream env2 (TorrentPhase.addOk []) "J6W" ⟨some "hello", none⟩ emptySt).1 =
        HandlerResp.acceptedJson "J6W"
    ∧ (handleStartStream env2 (TorrentPhase.addOk []) "J6W" ⟨none, none⟩ emptySt).1 =
        HandlerResp.badRequest "No magnet link or torrent file provided." := by
  have h := invalid_input_surfaces_asynchronously env2 (TorrentPhase.addOk []) "J6W" "hello"
    emptySt (by decide) (by decide)
  exact ⟨by decide, by decide, h.1, h.2.2.1⟩

theorem stepState_results (st : St) (uid : String) (f : TFile) (url fn : String) :
    (stepState st uid f url fn).results = st.results ++ [(uid, url, fn)] := rfl

theorem stepState_log (st : St) (uid : String) (f : TFile) (url fn : String) :
    (stepState st uid f url fn).log = st.log ++ [(uid, "Processing file: " ++ f.name)] := rfl

theorem errStepState_results (st : St) (uid : String) (f : TFile) :
    (errStepState st uid f).results = st.results := rfl

theorem errStepState_log (st : St) (uid : String) (f : TFile) :
    (errStepState st uid f).log = st.log ++ [(uid, "Processing file: " ++ f.name)] := rfl

theorem processFilesLoop_cons_err (env : JobEnv) (uid : String) (f : TFile)
    (rest : List TFile) (st : St) (msg : String)
    (hout : fileOutcome env uid f = Except.error msg) :
    processFilesLoop env uid (f :: rest) st = (errStepState st uid f, Except.error msg) := by
  cases ht : env.transcode f.name with
  | error e =>
    simp only [fileOutcome, ht, Except.error.injEq] at hout
    subst hout
    simp only [processFilesLoop, ht]
    rfl
  | ok sp =>
    obtain ⟨segs, pl⟩ := sp
    rcases hu : uploadHLSFilesForVideo env.names env.up uid (("index.m3u8", pl) :: segs)
      with ⟨tr, res⟩
    have hres : res = Except.error msg := by
      simp only [fileOutcome, ht] at hout
      rw [hu] at hout
      exact hout
    subst hres
    simp only [processFilesLoop, ht]
    rw [hu]
    rfl

theorem processFilesLoop_cons_ok_ok (env : JobEnv) (uid : String) (f : TFile)
    (rest : List TFile) (st st4 : St) (url m3u8Name : String) (urls : List (String × String))
    (hout : fileOutcome env uid f = Except.ok (url, m3u8Name))
    (hrec : processFilesLoop env uid rest (stepState st uid f url m3u8Name) =
      (st4, Except.ok urls)) :
    processFilesLoop env uid (f :: rest) st = (st4, Except.ok ((url, f.name) :: urls)) := by
  cases ht : env.transcode f.name with
  | error e =>
    simp only [fileOutcome, ht] at hout
    exact absurd hout (by simp)
  | ok sp =>
    obtain ⟨segs, pl⟩ := sp
    rcases hu : uploadHLSFilesForVideo env.names env.up uid (("index.m3u8", pl) :: segs)
      with ⟨tr, res⟩
    have hres : res = Except.ok (url, m3u8Name) := by
      simp only [fileOutcome, ht] at hout
      rw [hu] at hout
      exact hout
    subst hres
    simp only [processFilesLoop, ht]
    rw [hu]
    simp only [stepState] at hrec
    simp only []
    rw [hrec]

theorem processFilesLoop_cons_ok_err (env : JobEnv) (uid : String) (f : TFile)
    (rest : List TFile) (st st4 : St) (url m3u8Name msg : String)
    (hout : fileOutcome env uid f = Except.ok (url, m3u8Name))
    (hrec : processFilesLoop env uid rest (stepState st uid f url m3u8Name) =
      (st4, Except.error msg)) :
    processFilesLoop env uid (f :: rest) st = (st4, Except.error msg) := by
  cases ht : env.transcode f.name with
  | error e =>
    simp only [fileOutcome, ht] at hout
    exact absurd hout (by simp)
  | ok sp =>
    obtain ⟨segs, pl⟩ := sp
    rcases hu : uploadHLSFilesForVideo env.names env.up uid (("index.m3u8", pl) :: segs)
      with ⟨tr, res⟩
    have hres : res = Except.ok (url, m3u8Name) := by
      simp only [fileOutcome, ht] at hout
      rw [hu] at hout
      exact hout
    subst hres
    simp only [processFilesLoop, ht]
    rw [hu]
    simp only [stepState] at hrec
    simp only []
    rw [hrec]

theorem processFilesLoop_abort (env : JobEnv) (uid : String) (bad : TFile) (msg : String)
    (hbad : fileOutcome env uid bad = Except.error msg) :
    ∀ (pre post : List TFile) (st : St),
      (∀ f ∈ pre, (fileOutcome env uid f).isOk = true) →
      (processFilesLoop env uid (pre ++ bad :: post) st).2 = Except.error msg
      ∧ (processFilesLoop env uid (pre ++ bad :: post) st).1.results =
          st.results ++ pre.map (fun f => (uid, urlOf env uid f, fnameOf env uid f))
      ∧ (processFilesLoop env uid (pre ++ bad :: post) st).1.log =
          st.log ++ (pre.map (fun f => (uid, "Processing file: " ++ f.name))
            ++ [(uid, "Processing file: " ++ bad.name)]) := by
  intro pre
  induction pre with
  | nil =>
    intro post st _
    rw [List.nil_append, processFilesLoop_cons_err env uid bad post st msg hbad]
    exact ⟨rfl, by simp [errStepState_results], by simp [errStepState_log]⟩
  | cons p pre ih =>
    intro post st hpre
    have hp : (fileOutcome env uid p).isOk = true := hpre p (List.mem_cons_self _ _)
    have hpre' : ∀ f ∈ pre, (fileOutcome env uid f).isOk = true :=
      fun f hf => hpre f (List.mem_cons_of_mem _ hf)
    cases hv : fileOutcome env uid p with
    | error e =>
      rw [hv] at hp
      simp [Except.isOk, Except.toBool] at hp
    | ok v =>
      obtain ⟨url, fn⟩ := v
      have hurl : urlOf env uid p = url := by simp [urlOf, hv]
      have hfn : fnameOf env uid p = fn := by simp [fnameOf, hv]
      obtain ⟨i1, i2, i3⟩ := ih post (stepState st uid p url fn) hpre'
      rcases hrec : processFilesLoop env uid (pre ++ bad :: post) (stepState st uid p url fn)
        with ⟨st4, rres⟩
      rw [hrec] at i1 i2 i3
      have hr : rres = Except.error msg := i1
      subst hr
      rw [List.cons_append, processFilesLoop_cons_ok_err env uid p (pre ++ bad :: post)
        st st4 url fn msg hv hrec]
      refine ⟨rfl, ?_, ?_⟩
      · have h2 : st4.results = (stepState st uid p url fn).results
            ++ pre.map (fun f => (uid, urlOf env uid f, fnameOf env uid f)) := i2
        rw [h2, stepState_results]
        simp [hurl, hfn]
      · have h3 : st4.log = (stepState st uid p url fn).log
            ++ (pre.map (fun f => (uid, "Processing file: " ++ f.name))
              ++ [(uid, "Processing file: " ++ bad.name)]) := i3
        rw [h3, stepState_log]
        simp

/-- C1 counterexample: a two-file job (`a.mp4` fails at transcode; `b.mp4`
would succeed) where the spec predicts that `b.mp4` is still attempted,
`getResults` returns exactly one entry, and the job completes.  The code
instead rejects the job with the first file's error, never attempts
`b.mp4` (no `Processing file: b.mp4` status is ever logged), and
`getResults` stays empty. -/
theorem transcode_error_aborts_job :
    run1.result = JobResult.rejected "boom"
    ∧ getPlaylistUrls run1.st "J" = []
    ∧ ("J", "Processing file: b.mp4") ∉ run1.st.log
    ∧ ("J", "Processing file: a.mp4") ∈ run1.st.log
    ∧ getStatusById run1.st "J" = "Error during processing: boom" := by
  refine ⟨by decide, by decide, by decide, by decide, by decide⟩

theorem getPlaylistUrls_append (st : St) (uid : String) (l : List (String × String × String))
    (h : ∀ e ∈ l, e.1 = uid) (st' : St) (hst : st'.results = st.results ++ l) :
    getPlaylistUrls st' uid = getPlaylistUrls st uid ++ l.map (fun e => e.2) := by
  simp only [getPlaylistUrls, hst, List.filter_append, List.map_append]
  have hl : l.filter (fun e => e.1 == uid) = l :=
    List.filter_eq_self.mpr (fun a ha => by simp [h a ha])
  rw [hl]

/-- C1 (corrected): partial-failure isolation does NOT hold.  A
`TranscodeError` or `UploadError` on one file is caught only to clean up
that file's work directory and is then propagated: the whole job is
rejected with that error (recorded in status as the failure message), the
files after the first failing one are never attempted, and `getResults`
returns exactly the entries of the files that succeeded before the
failure.  The job reaches the completed status only when every qualifying
file succeeds. -/
theorem first_file_error_fails_job (env : JobEnv) (uid : String) (input inp2 : Input)
    (st : St) (pre post : List TFile) (bad : TFile) (msg : String)
    (hin : resolveInput input = Except.ok inp2)
    (hq : ∀ f ∈ pre ++ bad :: post, videoFileTest f.name = true)
    (hpre : ∀ f ∈ pre, (fileOutcome env uid f).isOk = true)
    (hbad : fileOutcome env uid bad = Except.error msg) :
    (streamFromInput env (TorrentPhase.addOk (pre ++ bad :: post)) input uid st).result =
        JobResult.rejected msg
    ∧ getPlaylistUrls
        (streamFromInput env (TorrentPhase.addOk (pre ++ bad :: post)) input uid st).st uid =
        getPlaylistUrls st uid ++ pre.map (fun f => (urlOf env uid f, fnameOf env uid f))
    ∧ (streamFromInput env (TorrentPhase.addOk (pre ++ bad :: post)) input uid st).st.log =
        st.log ++ ((uid, "Torrent added. Processing video files...")
          :: (pre.map (fun f => (uid, "Processing file: " ++ f.name))
            ++ [(uid, "Processing file: " ++ bad.name),
                (uid, "Error during processing: " ++ msg)]))
    ∧ getStatusById
        (streamFromInput env (TorrentPhase.addOk (pre ++ bad :: post)) input uid st).st uid =
        "Error during processing: " ++ msg := by
  unfold streamFromInput
  rw [hin]
  simp only
  have hfil : (pre ++ bad :: post).filter (fun f => videoFileTest f.name) =
      pre ++ bad :: post := List.filter_eq_self.mpr hq
  have hemp : (pre ++ bad :: post).isEmpty = false := by
    cases pre <;> rfl
  simp only [processTorrentFiles, hfil, hemp, Bool.false_eq_true, if_false]
  obtain ⟨a1, a2, a3⟩ := processFilesLoop_abort env uid bad msg hbad pre post
    (updateStatus st uid "Torrent added. Processing video files...") hpre
  rcases hlp : processFilesLoop env uid (pre ++ bad :: post)
      (updateStatus st uid "Torrent added. Processing video files...") with ⟨st2, r⟩
  rw [hlp] at a1 a2 a3
  have hr : r = Except.error msg := a1
  subst hr
  simp only []
  refine ⟨trivial, ?_, ?_, ?_⟩
  · have happ := getPlaylistUrls_append st uid
      (pre.map (fun f => (uid, urlOf env uid f, fnameOf env uid f)))
      (by
        intro e he
        obtain ⟨f, -, hfe⟩ := List.mem_map.mp he
        rw [← hfe])
      (updateStatus st2 uid ("Error during processing: " ++ msg))
      (by
        have h2 : st2.results =
            (updateStatus st uid "Torrent added. Processing video files...").results
              ++ pre.map (fun f => (uid, urlOf env uid f, fnameOf env uid f)) := a2
        simp only [updateStatus] at h2 ⊢
        simpa using h2)
    rw [happ]
    simp [List.map_map, Function.comp]
  · have h3 : st2.log = (updateStatus st uid "Torrent added. Processing video files...").log
        ++ (pre.map (fun f => (uid, "Processing file: " ++ f.name))
          ++ [(uid, "Processing file: " ++ bad.name)]) := a3
    simp only [updateStatus] at h3 ⊢
    rw [h3]
    simp
  · simp [getStatusById, updateStatus, List.lookup]

theorem first_file_error_fails_job_witness :
    resolveInput magnetInput = Except.ok magnetInput
    ∧ (∀ f ∈ (([] : List TFile) ++ ⟨"a.mp4"⟩ :: [⟨"b.mp4"⟩]), videoFileTest f.name = true)
    ∧ fileOutcome env1 "JW1" ⟨"a.mp4"⟩ = Except.error "boom"
    ∧ (streamFromInput env1 (TorrentPhase.addOk (([] : List TFile) ++ ⟨"a.mp4"⟩ :: [⟨"b.mp4"⟩]))
        magnetInput "JW1" emptySt).result = JobResult.rejected "boom" := by
  have h := first_file_error_fails_job env1 "JW1" magnetInput magnetInput emptySt []
    [⟨"b.mp4"⟩] ⟨"a.mp4"⟩ "boom" (by decide) (by decide) (by decide) (by decide)
  exact ⟨by decide, by decide, by decide, h.1⟩

theorem uploadHLS_ok_fname (names : Nat → String) (up : String → Option String)
    (uid pl : String) (segs : List (String × String)) (url fn : String)
    (h : (uploadHLSFilesForVideo names up uid (("index.m3u8", pl) :: segs)).2 =
      Except.ok (url, fn)) :
    fn = "index.m3u8" := by
  unfold uploadHLSFilesForVideo at h
  have hfind : (((("index.m3u8", pl) :: segs).map Prod.fst).find?
      (fun f => endsWithS f ".m3u8")) = some "index.m3u8" := by
    simp only [List.map_cons]
    rw [List.find?_cons_of_pos]
    decide
  rw [hfind] at h
  simp only at h
  rcases hseg : uploadSegments names up uid
      (((("index.m3u8", pl) :: segs).map Prod.fst).filter (fun f => endsWithS f ".ts")) 0
    with ⟨tr, res⟩
  rw [hseg] at h
  cases res with
  | error e => simp at h
  | ok mapping =>
    simp only at h
    cases hup : up (uid ++ "/"
        ++ (names (((("index.m3u8", pl) :: segs).map Prod.fst).filter
            (fun f => endsWithS f ".ts")).length ++ ".m3u8")) with
    | some m => rw [hup] at h; simp at h
    | none =>
      rw [hup] at h
      simp only [Except.ok.injEq, Prod.mk.injEq] at h
      exact h.2.symm

theorem fnameOf_eq_index (env : JobEnv) (uid : String) (f : TFile) (url fn : String)
    (hv : fileOutcome env uid f = Except.ok (url, fn)) : fn = "index.m3u8" := by
  cases ht : env.transcode f.name with
  | error e => simp [fileOutcome, ht] at hv
  | ok sp =>
    obtain ⟨segs, pl⟩ := sp
    simp only [fileOutcome, ht] at hv
    exact uploadHLS_ok_fname env.names env.up uid pl segs url fn hv

theorem processFilesLoop_results_mem (env : JobEnv) (uid : String) :
    ∀ (fs : List TFile) (st : St) (e : String × String × String),
      e ∈ (processFilesLoop env uid fs st).1.results →
      e ∈ st.results ∨ e.2.2 = "index.m3u8" := by
  intro fs
  induction fs with
  | nil => intro st e he; exact Or.inl he
  | cons f rest ih =>
    intro st e he
    cases hv : fileOutcome env uid f with
    | error msg =>
      rw [processFilesLoop_cons_err env uid f rest st msg hv] at he
      exact Or.inl he
    | ok v =>
      obtain ⟨url, fn⟩ := v
      have hfn : fn = "index.m3u8" := fnameOf_eq_index env uid f url fn hv
      rcases hrec : processFilesLoop env uid rest (stepState st uid f url fn) with ⟨st4, rres⟩
      have hin : e ∈ st4.results → e ∈ st.results ∨ e.2.2 = "index.m3u8" := by
        intro hmem
        have h4 := ih (stepState st uid f url fn) e (by rw [hrec]; exact hmem)
        rcases h4 with h4 | h4
        · rw [stepState_results] at h4
          rcases List.mem_append.mp h4 with h5 | h5
          · exact Or.inl h5
          · simp only [List.mem_singleton] at h5
            subst h5
            exact Or.inr hfn
        · exact Or.inr h4
      cases rres with
      | error msg =>
        rw [processFilesLoop_cons_ok_err env uid f rest st st4 url fn msg hv hrec] at he
        exact hin he
      | ok urls =>
        rw [processFilesLoop_cons_ok_ok env uid f rest st st4 url fn urls hv hrec] at he
        exact hin he

theorem processFilesLoop_ok_names (env : JobEnv) (uid : String) :
    ∀ (fs : List TFile) (st : St) (urls : List (String × String)),
      (processFilesLoop env uid fs st).2 = Except.ok urls →
      urls.map Prod.snd = fs.map TFile.name := by
  intro fs
  induction fs with
  | nil =>
    intro st urls h
    simp only [processFilesLoop, Except.ok.injEq] at h
    subst h
    rfl
  | cons f rest ih =>
    intro st urls h
    cases hv : fileOutcome env uid f with
    | error msg =>
      rw [processFilesLoop_cons_err env uid f rest st msg hv] at h
      simp at h
    | ok v =>
      obtain ⟨url, fn⟩ := v
      rcases hrec : processFilesLoop env uid rest (stepState st uid f url fn) with ⟨st4, rres⟩
      cases rres with
      | error msg =>
        rw [processFilesLoop_cons_ok_err env uid f rest st st4 url fn msg hv hrec] at h
        simp at h
      | ok urls' =>
        rw [processFilesLoop_cons_ok_ok env uid f rest st st4 url fn urls' hv hrec] at h
        simp only [Except.ok.injEq] at h
        subst h
        have hrest := ih (stepState st uid f url fn) urls' (by rw [hrec])
        simp [hrest]

/-- C2 counterexample: a successful single-file job for `movie.mp4`.  The
entry appended to the job's result list — what `getResults`
(`getPlaylistUrls`) returns — carries `fileName = "index.m3u8"` (the local
playlist file's name), NOT the original media file name: no returned entry
has `fileName = "movie.mp4"`.  The original name appears only in the list
the `streamFromInput` promise resolves with, which `getResults` does not
expose. -/
theorem getResults_filename_not_original :
    getPlaylistUrls run2.st "J" =
      [("https://neko-minio.b1pohl.easypanel.host/hls/J/AAAABBBBCCCC.m3u8", "index.m3u8")]
    ∧ run2.result = JobResult.resolved
        [("https://neko-minio.b1pohl.easypanel.host/hls/J/AAAABBBBCCCC.m3u8", "movie.mp4")]
    ∧ ∀ e ∈ getPlaylistUrls run2.st "J", e.2 ≠ "movie.mp4" := by
  refine ⟨by decide, by decide, by decide⟩

/-- C2 (amended): for every run of the per-file loop, every entry appended
to the job's result list (the list `getResults` reads) has its `fileName`
field equal to `"index.m3u8"` — the name of the local playlist file found
in the work directory, fixed by the transcode invocation — never the
original torrent file name; the original names appear only in the list the
loop returns to `streamFromInput` (one entry per processed file, in
order). -/
theorem getResults_filename_is_local_playlist (env : JobEnv) (uid : String)
    (fs : List TFile) (st : St) :
    (∀ e ∈ (processFilesLoop env uid fs st).1.results,
        e ∈ st.results ∨ e.2.2 = "index.m3u8")
    ∧ (∀ urls, (processFilesLoop env uid fs st).2 = Except.ok urls →
        urls.map Prod.snd = fs.map TFile.name) :=
  ⟨fun e he => processFilesLoop_results_mem env uid fs st e he,
   fun urls h => processFilesLoop_ok_names env uid fs st urls h⟩

theorem getResults_filename_is_local_playlist_witness :
    (("J", "https://neko-minio.b1pohl.easypanel.host/hls/J/AAAABBBBCCCC.m3u8", "index.m3u8")
        ∈ emptySt.results
      ∨ (("J", "https://neko-minio.b1pohl.easypanel.host/hls/J/AAAABBBBCCCC.m3u8",
          "index.m3u8") : String × String × String).2.2 = "index.m3u8")
    ∧ ([("https://neko-minio.b1pohl.easypanel.host/hls/J/AAAABBBBCCCC.m3u8", "movie.mp4")].map
        Prod.snd = ([⟨"movie.mp4"⟩] : List TFile).map TFile.name) :=
  ⟨(getResults_filename_is_local_playlist env2 "J" [⟨"movie.mp4"⟩] emptySt).1
      ("J", "https://neko-minio.b1pohl.easypanel.host/hls/J/AAAABBBBCCCC.m3u8", "index.m3u8")
      (by decide),
   (getResults_filename_is_local_playlist env2 "J" [⟨"movie.mp4"⟩] emptySt).2
      [("https://neko-minio.b1pohl.easypanel.host/hls/J/AAAABBBBCCCC.m3u8", "movie.mp4")]
      (by decide)⟩

end MagFly
